import Mathlib

/-!
Shallow embedding of the decoder core in `src/model/LSTMDecoderLM.py`
(`class DecoderRNN`), over an ordered field `α` standing for the float
dtype and an opaque type `σ` standing for one batch element's recurrent
hidden (or cell) content.  Tensors are modelled by nested lists in the
same index order as the source (`[batch, width, vocab]`, `[K, B, V]`,
...); the singleton `n_layers` dimension of hidden/cell tensors is
dropped, and out-of-range tensor indexing is modelled by `getD`
defaults.  The embedding/dropout/LSTM-cell composite and the attention
and output-projection layers are external numeric collaborators of the
decode loop and are carried as opaque function fields of the model.
-/

namespace DecoderLM

/-- The literal `1e-18` of the source, used both as the `logits.scatter_`
overwrite value in `forward_step` and as the epsilon floor inside the
beam-score logarithm. -/
def tiny (α : Type) [DivisionRing α] : α := 1 / 10 ^ 18

/-- Index of the (first) maximum entry of a list: `tensor.topk(1)[1]` along
the last dimension. -/
def argmaxIdx {α : Type} [LinearOrder α] : List α → ℕ
  | [] => 0
  | x :: xs =>
    let r := argmaxIdx xs
    if xs.getD r x ≤ x then 0 else r + 1

/-- One `logits.scatter_(1, idx, v)` on a `[B, V]` matrix with an index
tensor holding one column position per row. -/
def scatterStep {α : Type} (logits : List (List α)) (idx : List ℕ) (v : α) :
    List (List α) :=
  (List.range logits.length).map fun b =>
    match idx.get? b with
    | some p => (logits.getD b []).set p v
    | none => logits.getD b []

/-- The `for i in range(len(prev_maxes)): logits.scatter_(...)` loop of
`forward_step`: each history entry overwrites its token positions, in
history order. -/
def scatterHist {α : Type} [DivisionRing α] (hist : List (List ℕ))
    (logits : List (List α)) : List (List α) :=
  hist.foldl (fun L idx => scatterStep L idx (tiny α)) logits

/-- The decoder model state (`self` of `DecoderRNN`) plus its numeric
collaborators.  `rnn` collapses `self.embedding`, `self.input_dropout`
and one time-step of `self.rnn` into a single abstract per-token step;
`attn` is `self.attention` restricted to one batch element (returning
the blended features and the attention weights); `out` is `self.out`,
producing the vocabulary-sized logits row.  `h0` is the implicit zero
initial state used when no hidden state is supplied to the LSTM.  The
embedding fixes the discrete-token-id input representation
(`use_prob_vector = False`); the probability-vector variant changes the
decoder input dtype and is outside every claim. -/
structure Model (α σ : Type) where
  topk : ℕ
  beamSearchMode : Bool
  max_length : ℕ
  use_attention : Bool
  eos_id : ℕ
  sos_id : ℕ
  force_max_len : Bool
  h0 : σ × σ
  rnn : ℕ → σ × σ → List α × (σ × σ)
  attn : List α → List (List α) → List α × List α
  out : List α → List α

/-- Sequential application of the recurrent cell over the width (time)
dimension of one batch element, threading the (hidden, cell) pair. -/
def runRnn {α σ : Type} (m : Model α σ) : List ℕ → σ × σ → List (List α) × (σ × σ)
  | [], hc => ([], hc)
  | t :: ts, hc =>
    let o := m.rnn t hc
    let rest := runRnn m ts o.2
    (o.1 :: rest.1, rest.2)

/-- Per-batch-element body of `forward_step` up to the output projection:
run the recurrent cell over the input tokens, optionally blend each
position through attention, and return per-position (features, attention
weights) plus the final recurrent state. -/
def stepB {α σ : Type} (m : Model α σ) (input_var : List (List ℕ))
    (hidden : Option (List (σ × σ))) (encO : List (List (List α))) (b : ℕ) :
    List (List α × List α) × (σ × σ) :=
  let hc0 := match hidden with
    | none => m.h0
    | some hs => hs.getD b m.h0
  let r := runRnn m (input_var.getD b []) hc0
  let featsA :=
    if m.use_attention then r.1.map fun o => m.attn o (encO.getD b [])
    else r.1.map fun o => (o, [])
  (featsA, r.2)

/-- The `output.contiguous().view(-1, hidden_size)` flattening followed by
`self.out`: logits rows in batch-major order (`B * width` rows). -/
def stepLogitsFlat {α σ : Type} (m : Model α σ) (input_var : List (List ℕ))
    (hidden : Option (List (σ × σ))) (encO : List (List (List α))) :
    List (List α) :=
  ((List.range input_var.length).map fun b =>
    (stepB m input_var hidden encO b).1.map fun fw => m.out fw.1).flatten

/-- `DecoderRNN.forward_step`.  Returns (`predicted_softmax` as
`[batch, width, vocab]`, updated per-batch-element (hidden, cell) pairs,
attention weights as `[batch, width, enc_len]` when attention is on). -/
def forwardStep {α σ : Type} [LinearOrderedField α] (m : Model α σ)
    (input_var : List (List ℕ)) (hidden : Option (List (σ × σ)))
    (encoder_outputs : Option (List (List (List α))))
    (function : List α → List α) (prev_maxes : Option (List (List ℕ))) :
    List (List (List α)) × List (σ × σ) × Option (List (List (List α))) :=
  let batch_size := input_var.length
  let output_size := (input_var.headD []).length
  let encO := encoder_outputs.getD []
  let logits := stepLogitsFlat m input_var hidden encO
  let logits2 :=
    if output_size = 1 then
      match prev_maxes with
      | some hist => scatterHist hist logits
      | none => logits
    else logits
  let predictedFlat := logits2.map function
  let predicted := (List.range batch_size).map fun b =>
    (predictedFlat.drop (b * output_size)).take output_size
  let newHidden := (List.range batch_size).map fun b =>
    (stepB m input_var hidden encO b).2
  let attnW :=
    if m.use_attention then
      some ((List.range batch_size).map fun b =>
        (stepB m input_var hidden encO b).1.map fun fw => fw.2)
    else none
  (predicted, newHidden, attnW)

/-- The mutable per-call bookkeeping of `forward`: `decoder_outputs`,
`sequence_symbols`, the attention trace appended to `ret_dict`, and the
numpy `lengths` vector. -/
structure DecState (α : Type) where
  decoder_outputs : List (List (List α))
  sequence_symbols : List (List ℕ)
  attn_trace : List (List (List α))
  lengths : List ℕ

/-- The `lengths[update_idx] = len(sequence_symbols)` assignment of the
`decode` closure: entry `b` becomes `newLen` when it is still greater
than `step` and the symbol emitted for `b` equals the EOS id. -/
def updateLengths (eos step newLen : ℕ) (symbols : List ℕ)
    (lengths : List ℕ) : List ℕ :=
  (List.range lengths.length).map fun b =>
    let len := lengths.getD b 0
    match symbols.get? b with
    | some s => if step < len ∧ s = eos then newLen else len
    | none => len

/-- The `decode` closure of `forward`: append the step output, record the
arg-max symbols, optionally record attention weights, and update the
length vector unless `force_max_len` is set.  Returns the new state and
the emitted symbols. -/
def decode {α σ : Type} [LinearOrderedField α] (m : Model α σ) (step : ℕ)
    (step_output : List (List α)) (step_attn : List (List α))
    (st : DecState α) : DecState α × List ℕ :=
  let symbols := step_output.map argmaxIdx
  let seq := st.sequence_symbols ++ [symbols]
  let lengths :=
    if m.force_max_len then st.lengths
    else updateLengths m.eos_id step seq.length symbols st.lengths
  ({ decoder_outputs := st.decoder_outputs ++ [step_output],
     sequence_symbols := seq,
     attn_trace :=
       if m.use_attention then st.attn_trace ++ [step_attn] else st.attn_trace,
     lengths := lengths }, symbols)

/-- Iterated `decode` over a list of (step output, step attention) pairs,
with the step index equal to the running count of processed steps; this
is the shape in which both the teacher-forced walk and the greedy loop
invoke `decode`. -/
def decodeRun {α σ : Type} [LinearOrderedField α] (m : Model α σ)
    (outs : List (List (List α) × List (List α))) (st : DecState α) :
    DecState α :=
  outs.foldl (fun s o => (decode m s.sequence_symbols.length o.1 o.2 s).1) st

/-- The decode bookkeeping at the start of `forward`: empty output,
symbol and attention lists, and
`lengths = np.array([max_length] * batch_size)`. -/
def initDecState (α : Type) (batch_size max_length : ℕ) : DecState α :=
  { decoder_outputs := [], sequence_symbols := [], attn_trace := [],
    lengths := List.replicate batch_size max_length }

/-- Stable insertion of an (index, value) pair into a list sorted by
value. -/
def insertLe {α : Type} [LinearOrder α] (x : ℕ × α) :
    List (ℕ × α) → List (ℕ × α)
  | [] => [x]
  | y :: ys => if x.2 ≤ y.2 then x :: y :: ys else y :: insertLe x ys

/-- Stable insertion sort of (index, value) pairs by value, modelling the
order in which `torch.topk(..., largest=False)` reports candidates. -/
def sortLe {α : Type} [LinearOrder α] : List (ℕ × α) → List (ℕ × α)
  | [] => []
  | x :: xs => insertLe x (sortLe xs)

/-- Row `b` of `candScores[:,:,0].permute(1,0,2).contiguous().view(B,-1)`:
the `K * V` candidate scores of batch element `b` in flattened
`k`-major order. -/
def flatRow {α : Type} (candScores : List (List (List (List α)))) (b : ℕ) :
    List α :=
  (candScores.map fun kSlice => ((kSlice.getD b []).getD 0 [])).flatten

/-- The `getTopkIndsnScores` closure of `forward`: flatten the `[K, B, 1, V]`
candidate-score tensor per batch element, take the `topk` smallest
scores, and decode each flat index into the
(`idx` div `V`, `idx` mod `V`) pair.  Results are in the transposed
`[topk, B]` layout of the source. -/
def getTopkIndsnScores {α : Type} [LinearOrderedField α] (topk : ℕ)
    (candScores : List (List (List (List α)))) :
    List (List (ℕ × ℕ)) × List (List α) :=
  let B := (candScores.headD []).length
  let V := (((candScores.headD []).headD []).headD []).length
  let sel := fun b => (sortLe (flatRow candScores b).enum).take topk
  let inds := (List.range topk).map fun j =>
    (List.range B).map fun b =>
      let idx := ((sel b).getD j (0, 0)).1
      (idx / V, idx % V)
  let scores := (List.range topk).map fun j =>
    (List.range B).map fun b => ((sel b).getD j (0, 0)).2
  (inds, scores)

/-- The caller-supplied `beamStates` dictionary: per-step `[K, B, 2]`
(parent, token) index pairs, per-step `[K, B]` running scores, and
per-step `[K, B]` cell states (only entry 0 is read). -/
structure BeamStates (α σ : Type) where
  topkInds : List (List (List (ℕ × ℕ)))
  newScores : List (List (List α))
  cells : List (List (List σ))

/-- The `beamStatesLM` trace built by `forward`: probability-vector
history (`[K, B, 1, V]` per step, seeded with an empty placeholder),
hidden-state history and cell-state history (`[K, B]` per step, both
seeded from `beamStates['cells'][0]`). -/
structure BeamLM (α σ : Type) where
  probVec : List (List (List (List (List α))))
  hiddens : List (List (List σ))
  cells : List (List (List σ))

/-- The beam-search score composition of `forward`:
`-torch.log(prob + 1e-18) * score`, multiplicative in the running
score, with the `1e-18` epsilon floor inside the logarithm. -/
def candScore {α : Type} [LinearOrderedField α] (lg : α → α) (p s : α) : α :=
  -lg (p + tiny α) * s

/-- The candidate-score tensor of one beam iteration:
`candScores = -torch.log(bmProbVec_nxt + 1e-18) * bmScores.unsqueeze(-1).unsqueeze(-1)`,
elementwise over `[K, B, 1, V]` with the running score broadcast over the
vocabulary dimension. -/
def mkCandScores {α : Type} [LinearOrderedField α] (lg : α → α)
    (batch_size : ℕ) (probVec : List (List (List (List α))))
    (scores : List (List α)) : List (List (List (List α))) :=
  (List.range scores.length).map fun k =>
    (List.range batch_size).map fun b =>
      [(((probVec.getD k []).getD b []).getD 0 []).map fun p =>
        candScore lg p ((scores.getD k []).getD b 0)]

/-- Everything one iteration of the beam loop computes, including the
values the loop body assigns but never threads onward
(`candScores`, `bmTopkInds_nxt`, `bmScores_nxt`). -/
structure BeamStepOut (α σ : Type) where
  probVec : List (List (List (List α)))
  hiddens : List (List σ)
  cells : List (List σ)
  candScores : List (List (List (List α)))
  topkInds_nxt : List (List (ℕ × ℕ))
  scores_nxt : List (List α)
  decoder_hidden : Option (List (σ × σ))

/-- One iteration of the beam-search branch of `forward`: expand each of
the `len(bmScores)` hypotheses with `forward_step` (gathering its
recurrent state from the previous step's states by the parent index),
stack the results, compose the candidate scores, and run the top-k
selection. -/
def beamStep {α σ : Type} [LinearOrderedField α] (m : Model α σ) (lg : α → α)
    (encoder_outputs : Option (List (List (List α))))
    (function : List α → List α) (batch_size : ℕ)
    (bmHiddens bmCells : List (List σ)) (bmTopkInds : List (List (ℕ × ℕ)))
    (bmScores : List (List α)) (decoder_hidden : Option (List (σ × σ))) :
    BeamStepOut α σ :=
  let K := bmScores.length
  let kres := (List.range K).map fun k =>
    let inds := bmTopkInds.getD k []
    let tokens := (List.range batch_size).map fun b =>
      [((inds.getD b (0, 0))).2]
    let hcs := (List.range batch_size).map fun b =>
      let parent := ((inds.getD b (0, 0))).1
      ((bmHiddens.getD parent []).getD b m.h0.1,
       (bmCells.getD parent []).getD b m.h0.2)
    let r := forwardStep m tokens (some hcs) encoder_outputs function none
    (r.1, r.2.1)
  let bmProbVec_nxt := kres.map (·.1)
  let bmHiddens_nxt := kres.map fun r => r.2.map Prod.fst
  let bmCells_nxt := kres.map fun r => r.2.map Prod.snd
  let candScores := mkCandScores lg batch_size bmProbVec_nxt bmScores
  let sel := getTopkIndsnScores m.topk candScores
  { probVec := bmProbVec_nxt,
    hiddens := bmHiddens_nxt,
    cells := bmCells_nxt,
    candScores := candScores,
    topkInds_nxt := sel.1,
    scores_nxt := sel.2,
    decoder_hidden :=
      match kres.getLast? with
      | some r => some r.2
      | none => decoder_hidden }

/-- State of the beam loop after `i` iterations, starting from the seeded
`beamStatesLM` trace and the initial decoder hidden state.  Iteration
`i` reads its hypothesis states from trace entry `i` and its
(parent, token) pairs and running scores from the caller-supplied
`beamStates` at index `i`. -/
def beamRun {α σ : Type} [LinearOrderedField α] (m : Model α σ) (lg : α → α)
    (encoder_outputs : Option (List (List (List α))))
    (function : List α → List α) (batch_size : ℕ) (bs : BeamStates α σ)
    (lm0 : BeamLM α σ) (dh0 : Option (List (σ × σ))) :
    ℕ → BeamLM α σ × Option (List (σ × σ))
  | 0 => (lm0, dh0)
  | i + 1 =>
    let prev := beamRun m lg encoder_outputs function batch_size bs lm0 dh0 i
    let out := beamStep m lg encoder_outputs function batch_size
      (prev.1.hiddens.getD i []) (prev.1.cells.getD i [])
      (bs.topkInds.getD i []) (bs.newScores.getD i []) prev.2
    ({ probVec := prev.1.probVec ++ [out.probVec],
       hiddens := prev.1.hiddens ++ [out.hiddens],
       cells := prev.1.cells ++ [out.cells] }, out.decoder_hidden)

/-- Exceptions `forward` can raise: the two `ValueError`s of
`_validate_args`, the `TypeError` from subscripting a `None`
`beamStates`, and the `IndexError` from reading element 0 of an empty
`beamStates` list. -/
inductive PyError where
  | attnNeedsEncoderOutputs : PyError
  | teacherForcingNeedsInputs : PyError
  | noneNotSubscriptable : PyError
  | listIndexOutOfRange : PyError
deriving DecidableEq

/-- `DecoderRNN._validate_args`: attention requires encoder outputs;
the batch size is inferred from inputs, then the encoder hidden state,
then defaults to 1; absent inputs require a zero teacher-forcing ratio
and are replaced by a start-of-sequence column with the decode length
taken from `self.max_length`; otherwise the decode length is the input
width minus one. -/
def validateArgs {α σ : Type} [LinearOrderedField α] (m : Model α σ)
    (inputs : Option (List (List ℕ))) (encoder_hidden : Option (List (σ × σ)))
    (encoder_outputs : Option (List (List (List α)))) (teacher_forcing_ratio : α) :
    Except PyError (List (List ℕ) × ℕ × ℕ) :=
  if m.use_attention ∧ encoder_outputs = none then
    Except.error PyError.attnNeedsEncoderOutputs
  else
    let batch_size :=
      match inputs, encoder_hidden with
      | none, none => 1
      | some i, _ => i.length
      | none, some eh => eh.length
    match inputs with
    | none =>
      if 0 < teacher_forcing_ratio then
        Except.error PyError.teacherForcingNeedsInputs
      else
        Except.ok (List.replicate batch_size [m.sos_id], batch_size, m.max_length)
    | some ins =>
      Except.ok (ins, batch_size, (ins.headD []).length - 1)

/-- The greedy autoregressive branch of `forward`: a fuel-indexed loop
threading the next decoder input, the hidden state, and the decode
bookkeeping; each iteration feeds the full emitted-symbol history to
`forward_step` as `prev_maxes`. -/
def greedyLoop {α σ : Type} [LinearOrderedField α] (m : Model α σ)
    (encoder_outputs : Option (List (List (List α))))
    (function : List α → List α) :
    ℕ → ℕ → List (List ℕ) → Option (List (σ × σ)) → DecState α →
    DecState α × Option (List (σ × σ))
  | 0, _, _, hidden, st => (st, hidden)
  | n + 1, di, decoder_input, hidden, st =>
    let r := forwardStep m decoder_input hidden encoder_outputs function
      (some st.sequence_symbols)
    let step_output := r.1.map fun row => row.headD []
    let step_attn :=
      match r.2.2 with
      | some ws => ws.map fun wb => wb.headD []
      | none => []
    let d := decode m di step_output step_attn st
    greedyLoop m encoder_outputs function n (di + 1)
      (d.2.map fun s => [s]) (some r.2.1) d.1

/-- The teacher-forced branch of `forward`: one batched `forward_step`
over the input minus its trailing token, then a walk over the width
dimension calling `decode` at each position. -/
def teacherForcedBranch {α σ : Type} [LinearOrderedField α] (m : Model α σ)
    (ins : List (List ℕ)) (hidden : Option (List (σ × σ)))
    (encoder_outputs : Option (List (List (List α))))
    (function : List α → List α) (st : DecState α) :
    DecState α × Option (List (σ × σ)) :=
  let decoder_input := ins.map List.dropLast
  let r := forwardStep m decoder_input hidden encoder_outputs function none
  let w := (r.1.headD []).length
  let st' := (List.range w).foldl (fun s di =>
    let step_output := r.1.map fun row => row.getD di []
    let step_attn :=
      match r.2.2 with
      | some ws => ws.map fun wb => wb.getD di []
      | none => []
    (decode m di step_output step_attn s).1) st
  (st', some r.2.1)

/-- The `ret_dict` of `forward`: the attention trace (present only when
attention is enabled), the emitted symbol sequence, the length vector,
and the `beamStatesLM` trace. -/
structure RetDict (α σ : Type) where
  attn_scores : Option (List (List (List α)))
  sequence : List (List ℕ)
  lengths : List ℕ
  beamStatesLM : BeamLM α σ

/-- The `(decoder_outputs, decoder_hidden, ret_dict)` result of a
successful `forward` call. -/
structure ForwardResult (α σ : Type) where
  decoder_outputs : List (List (List α))
  decoder_hidden : Option (List (σ × σ))
  ret : RetDict α σ

/-- `DecoderRNN.forward`.  `lg` is `torch.log` (the float logarithm),
`coin` the `random.random()` draw deciding teacher forcing.  The first
component of the result is the model after the call: `forward` begins
by assigning `self.max_length = max_len`, and this mutation persists
even when validation fails.  A `None` `beamStates` is fatal at the
unconditional `beamStates['topkInds'][0].shape[1]` read. -/
def forward {α σ : Type} [LinearOrderedField α] (m : Model α σ) (lg : α → α)
    (inputs : Option (List (List ℕ))) (beamStates : Option (BeamStates α σ))
    (encoder_hidden : Option (List (σ × σ)))
    (encoder_outputs : Option (List (List (List α))))
    (function : List α → List α) (teacher_forcing_ratio : α) (max_len : ℕ)
    (semi_sup : Bool) (coin : α) :
    Model α σ × Except PyError (ForwardResult α σ) :=
  let m1 := { m with max_length := max_len }
  match validateArgs m1 inputs encoder_hidden encoder_outputs teacher_forcing_ratio with
  | Except.error e => (m1, Except.error e)
  | Except.ok v =>
    let ins := v.1
    let max_length := v.2.2
    match beamStates with
    | none => (m1, Except.error PyError.noneNotSubscriptable)
    | some bs =>
      match bs.topkInds.head?, bs.cells.head? with
      | some tk0, some c0 =>
        let batch_size := (tk0.headD []).length
        let decoder_hidden := encoder_hidden
        let use_teacher_forcing := decide (coin < teacher_forcing_ratio)
        let st0 : DecState α := initDecState α batch_size max_length
        let lm0 : BeamLM α σ := { probVec := [[]], hiddens := [c0], cells := [c0] }
        if use_teacher_forcing then
          let r := teacherForcedBranch m1 ins decoder_hidden encoder_outputs function st0
          (m1, Except.ok
            { decoder_outputs := r.1.decoder_outputs,
              decoder_hidden := r.2,
              ret := { attn_scores :=
                         if m1.use_attention then some r.1.attn_trace else none,
                       sequence := r.1.sequence_symbols,
                       lengths := r.1.lengths,
                       beamStatesLM := lm0 } })
        else if m1.beamSearchMode then
          let r := beamRun m1 lg encoder_outputs function batch_size bs lm0
            decoder_hidden max_length
          (m1, Except.ok
            { decoder_outputs := [],
              decoder_hidden := r.2,
              ret := { attn_scores :=
                         if m1.use_attention then some st0.attn_trace else none,
                       sequence := st0.sequence_symbols,
                       lengths := st0.lengths,
                       beamStatesLM := r.1 } })
        else
          let decoder_input0 := ins.map fun row => [row.getD 0 0]
          let r := greedyLoop m1 encoder_outputs function max_length 0
            decoder_input0 decoder_hidden st0
          (m1, Except.ok
            { decoder_outputs := r.1.decoder_outputs,
              decoder_hidden := r.2,
              ret := { attn_scores :=
                         if m1.use_attention then some r.1.attn_trace else none,
                       sequence := r.1.sequence_symbols,
                       lengths := r.1.lengths,
                       beamStatesLM := lm0 } })
      | _, _ => (m1, Except.error PyError.listIndexOutOfRange)

/-! ## Concrete instances used by witnesses and counterexamples -/

/-- A small concrete decoder instance over `ℚ` (with `ℕ` hidden
content): vocabulary size 3, EOS id 2, attention off, greedy-capable. -/
def mW : Model ℚ ℕ :=
  { topk := 1, beamSearchMode := false, max_length := 7, use_attention := false,
    eos_id := 2, sos_id := 0, force_max_len := false, h0 := (0, 0),
    rnn := fun t hc => ([(t : ℚ), (hc.1 : ℚ)], (hc.1 + t + 1, hc.2)),
    attn := fun o _ => (o, []),
    out := fun fe => [fe.getD 0 0, fe.getD 1 0 + 1, 2 - fe.getD 0 0] }

/-- `mW` with attention enabled (and no encoder outputs supplied by the
witness call). -/
def mWA : Model ℚ ℕ := { mW with use_attention := true }

/-- A concrete single-batch beam-state bundle for `mW`-family witness
calls. -/
def bsW : BeamStates ℚ ℕ :=
  { topkInds := [[[(0, 0)], [(0, 0)]]], newScores := [[[1], [1]]],
    cells := [[[5], [5]]] }

/-- The spec's beam-selection scenario: a `[K, B, 1, V]` candidate-score
tensor with `K = 2`, `B = 1`, `V = 2` and scores `[[0.1, 0.4], [0.2, 0.3]]`. -/
def candW : List (List (List (List ℚ))) :=
  [[[[1 / 10, 4 / 10]]], [[[2 / 10, 3 / 10]]]]

/-- A single-hypothesis (`topk = 1`), single-batch beam model over `ℝ`
whose output head always produces the one-element logits row `[1]`. -/
def mC2 : Model ℝ ℕ :=
  { topk := 1, beamSearchMode := true, max_length := 2, use_attention := false,
    eos_id := 1, sos_id := 0, force_max_len := false, h0 := (0, 0),
    rnn := fun _ _ => ([0], (0, 0)),
    attn := fun o _ => (o, []),
    out := fun _ => [1] }

/-- Caller-supplied beam states for two steps of `mC2`: the running score
consumed at step 0 is `0` and the one consumed at step 1 is `1`. -/
def bsC2 : BeamStates ℝ ℕ :=
  { topkInds := [[[(0, 0)]], [[(0, 0)]]],
    newScores := [[[0]], [[1]]],
    cells := [[[0]]] }

/-- The `beamStatesLM` seed `forward` would build for `bsC2` (probability
placeholder, hidden and cell traces seeded from `bsC2.cells[0]`). -/
def lmC2 : BeamLM ℝ ℕ := { probVec := [[]], hiddens := [[[0]]], cells := [[[0]]] }

/-- `mW` with the force-max-length flag enabled. -/
def mWF : Model ℚ ℕ := { mW with force_max_len := true }

/-- A decode state whose single length entry is already finalized
(recorded length 1 after one emitted EOS symbol). -/
def stW : DecState ℚ :=
  { decoder_outputs := [], sequence_symbols := [[2]], attn_trace := [],
    lengths := [1] }

/-- Two concrete decode steps (step output, step attention) for witness
runs of the `decode` iteration. -/
def outsW : List (List (List ℚ) × List (List ℚ)) :=
  [([[0, 0, 1]], []), ([[1, 0, 0]], [])]

/-! ## Shared helper lemmas -/

theorem getD_map_range {β : Type} (f : ℕ → β) (n i : ℕ) (d : β) (h : i < n) :
    ((List.range n).map f).getD i d = f i := by
  rw [List.getD_eq_getElem?_getD, List.getElem?_map, List.getElem?_range h]
  rfl

theorem runRnn_length {α σ : Type} (m : Model α σ) (ts : List ℕ) (hc : σ × σ) :
    (runRnn m ts hc).1.length = ts.length := by
  induction ts generalizing hc with
  | nil => rfl
  | cons t ts ih => simp [runRnn, ih]

theorem stepB_length {α σ : Type} (m : Model α σ) (iv : List (List ℕ))
    (hidden : Option (List (σ × σ))) (encO : List (List (List α))) (b : ℕ) :
    (stepB m iv hidden encO b).1.length = (iv.getD b []).length := by
  unfold stepB
  by_cases h : m.use_attention <;> simp [h, runRnn_length]

theorem updateLengths_getD {eos step newLen : ℕ} (syms lens : List ℕ) (b : ℕ) :
    (updateLengths eos step newLen syms lens).getD b 0 =
      if b < lens.length then
        match syms.get? b with
        | some s => if step < lens.getD b 0 ∧ s = eos then newLen else lens.getD b 0
        | none => lens.getD b 0
      else 0 := by
  by_cases hb : b < lens.length
  · rw [updateLengths, getD_map_range _ _ _ _ hb, if_pos hb]
  · rw [if_neg hb]
    rw [List.getD_eq_getElem?_getD, List.getElem?_eq_none]
    · rfl
    · simpa [updateLengths] using not_lt.mp hb

theorem decode_lengths_getD {α σ : Type} [LinearOrderedField α] (m : Model α σ)
    (step : ℕ) (out attn : List (List α)) (st : DecState α) (b : ℕ)
    (hstep : st.sequence_symbols.length = step) (hb : b < out.length) :
    (decode m step out attn st).1.lengths.getD b 0 =
      if m.force_max_len = false ∧ step < st.lengths.getD b 0 ∧
          argmaxIdx (out.getD b []) = m.eos_id
      then step + 1 else st.lengths.getD b 0 := by
  by_cases hf : m.force_max_len
  · simp [decode, hf]
  · have hf' : m.force_max_len = false := by simpa using hf
    simp only [decode, hf', Bool.false_eq_true, if_false]
    rw [updateLengths_getD]
    by_cases hbl : b < st.lengths.length
    · rw [if_pos hbl]
      have hget : (out.map argmaxIdx).get? b = some (argmaxIdx (out.getD b [])) := by
        rw [List.get?_eq_getElem?, List.getElem?_map]
        rw [List.getElem?_eq_getElem hb]
        simp [List.getD_eq_getElem?_getD, List.getElem?_eq_getElem hb]
      rw [hget]
      simp [List.length_append, hstep]
    · rw [if_neg hbl]
      have h0 : st.lengths[b]?.getD 0 = 0 := by
        rw [List.getElem?_eq_none (not_lt.mp hbl)]
        rfl
      simp [List.getD_eq_getElem?_getD, h0]

theorem decode_lengths_getD_frozen {α σ : Type} [LinearOrderedField α]
    (m : Model α σ) (step : ℕ) (out attn : List (List α)) (st : DecState α)
    (b : ℕ) (h : st.lengths.getD b 0 ≤ step) :
    (decode m step out attn st).1.lengths.getD b 0 = st.lengths.getD b 0 := by
  by_cases hf : m.force_max_len
  · simp [decode, hf]
  · have hf' : m.force_max_len = false := by simpa using hf
    simp only [decode, hf', Bool.false_eq_true, if_false]
    rw [updateLengths_getD]
    by_cases hbl : b < st.lengths.length
    · rw [if_pos hbl]
      cases hs : (out.map argmaxIdx).get? b with
      | none => rfl
      | some s =>
        show (if step < st.lengths.getD b 0 ∧ s = m.eos_id
            then (st.sequence_symbols ++ [List.map argmaxIdx out]).length
            else st.lengths.getD b 0) = st.lengths.getD b 0
        rw [if_neg]
        rintro ⟨h1, -⟩
        exact absurd h1 (not_lt.mpr h)
    · rw [if_neg hbl]
      have h0 : st.lengths[b]?.getD 0 = 0 := by
        rw [List.getElem?_eq_none (not_lt.mp hbl)]
        rfl
      simp [List.getD_eq_getElem?_getD, h0]

theorem decode_seq_length {α σ : Type} [LinearOrderedField α]
    (m : Model α σ) (step : ℕ) (out attn : List (List α)) (st : DecState α) :
    (decode m step out attn st).1.sequence_symbols.length =
      st.sequence_symbols.length + 1 := by
  simp [decode]

theorem decodeRun_frozen {α σ : Type} [LinearOrderedField α] (m : Model α σ)
    (outs : List (List (List α) × List (List α))) (st : DecState α) (b : ℕ)
    (h : st.lengths.getD b 0 ≤ st.sequence_symbols.length) :
    (decodeRun m outs st).lengths.getD b 0 = st.lengths.getD b 0 := by
  induction outs generalizing st with
  | nil => rfl
  | cons o rest ih =>
    have hrun : decodeRun m (o :: rest) st =
        decodeRun m rest (decode m st.sequence_symbols.length o.1 o.2 st).1 := rfl
    rw [hrun]
    have hfr := decode_lengths_getD_frozen m st.sequence_symbols.length o.1 o.2 st b h
    rw [ih _ (by rw [hfr, decode_seq_length]; exact h.trans (Nat.le_succ _)), hfr]

theorem decodeRun_force {α σ : Type} [LinearOrderedField α] (m : Model α σ)
    (outs : List (List (List α) × List (List α))) (st : DecState α)
    (hf : m.force_max_len = true) :
    (decodeRun m outs st).lengths = st.lengths := by
  induction outs generalizing st with
  | nil => rfl
  | cons o rest ih =>
    have hrun : decodeRun m (o :: rest) st =
        decodeRun m rest (decode m st.sequence_symbols.length o.1 o.2 st).1 := rfl
    rw [hrun, ih]
    simp [decode, hf]

theorem scatterStep_length {α : Type} (L : List (List α)) (idx : List ℕ) (v : α) :
    (scatterStep L idx v).length = L.length := by
  simp [scatterStep]

theorem scatterStep_getD {α : Type} (L : List (List α)) (idx : List ℕ) (v : α)
    (b : ℕ) (hb : b < L.length) :
    (scatterStep L idx v).getD b [] =
      match idx.get? b with
      | some p => (L.getD b []).set p v
      | none => L.getD b [] := by
  rw [scatterStep, getD_map_range _ _ _ _ hb]

theorem scatterStep_row_length {α : Type} (L : List (List α)) (idx : List ℕ)
    (v : α) (b : ℕ) (hb : b < L.length) :
    ((scatterStep L idx v).getD b []).length = (L.getD b []).length := by
  rw [scatterStep_getD L idx v b hb]
  cases idx.get? b <;> simp

theorem set_getD_self {α : Type} (l : List α) (p : ℕ) (v : α) (d : α)
    (hp : p < l.length) : (l.set p v).getD p d = v := by
  rw [List.getD_eq_getElem?_getD, List.getElem?_set_self]
  · rfl
  · exact hp

theorem set_getD_preserve {α : Type} (l : List α) (p q : ℕ) (v : α) (d : α)
    (h : l.getD q d = v) : (l.set p v).getD q d = v := by
  by_cases hpq : p = q
  · subst hpq
    by_cases hp : p < l.length
    · exact set_getD_self l p v d hp
    · rwa [List.set_eq_of_length_le (not_lt.mp hp)]
  · rw [List.getD_eq_getElem?_getD, List.getElem?_set_ne hpq,
      ← List.getD_eq_getElem?_getD, h]

theorem scatterHist_preserve {α : Type} [DivisionRing α]
    (hist : List (List ℕ)) (logits : List (List α)) (b q : ℕ)
    (hb : b < logits.length) (h : (logits.getD b []).getD q 0 = tiny α) :
    ((scatterHist hist logits).getD b []).getD q 0 = tiny α := by
  induction hist generalizing logits with
  | nil => exact h
  | cons e rest ih =>
    have hstep : scatterHist (e :: rest) logits =
        scatterHist rest (scatterStep logits e (tiny α)) := rfl
    rw [hstep]
    refine ih _ (by rw [scatterStep_length]; exact hb) ?_
    rw [scatterStep_getD _ _ _ _ hb]
    cases e.get? b with
    | none => exact h
    | some p => exact set_getD_preserve _ _ _ _ _ h

theorem scatterHist_length {α : Type} [DivisionRing α]
    (hist : List (List ℕ)) (logits : List (List α)) :
    (scatterHist hist logits).length = logits.length := by
  induction hist generalizing logits with
  | nil => rfl
  | cons e rest ih =>
    have hstep : scatterHist (e :: rest) logits =
        scatterHist rest (scatterStep logits e (tiny α)) := rfl
    rw [hstep, ih, scatterStep_length]

theorem scatterHist_getD {α : Type} [DivisionRing α]
    (hist : List (List ℕ)) (logits : List (List α)) (b i : ℕ)
    (hi : i < hist.length) (hb : b < logits.length)
    (hbe : b < (hist.getD i []).length)
    (hp : (hist.getD i []).getD b 0 < (logits.getD b []).length) :
    ((scatterHist hist logits).getD b []).getD ((hist.getD i []).getD b 0) 0 =
      tiny α := by
  induction hist generalizing logits i with
  | nil => exact absurd hi (by simp)
  | cons e rest ih =>
    have hstep : scatterHist (e :: rest) logits =
        scatterHist rest (scatterStep logits e (tiny α)) := rfl
    rw [hstep]
    cases i with
    | zero =>
      have he : ((e :: rest) : List (List ℕ)).getD 0 [] = e := rfl
      rw [he] at hbe hp ⊢
      refine scatterHist_preserve rest _ b _ (by rw [scatterStep_length]; exact hb) ?_
      rw [scatterStep_getD _ _ _ _ hb]
      have hgb : e.get? b = some (e.getD b 0) := by
        rw [List.get?_eq_getElem?, List.getElem?_eq_getElem hbe]
        simp [List.getD_eq_getElem?_getD, List.getElem?_eq_getElem hbe]
      rw [hgb]
      exact set_getD_self _ _ _ _ hp
    | succ j =>
      have he : ((e :: rest) : List (List ℕ)).getD (j + 1) [] = rest.getD j [] := rfl
      rw [he] at hbe hp ⊢
      refine ih _ j (by simpa using hi) (by rw [scatterStep_length]; exact hb) hbe ?_
      rw [scatterStep_row_length _ _ _ _ hb]
      exact hp

theorem stepLogitsFlat_length_ones {α σ : Type} (m : Model α σ)
    (iv : List (List ℕ)) (hidden : Option (List (σ × σ)))
    (encO : List (List (List α))) (hrows : ∀ r ∈ iv, r.length = 1) :
    (stepLogitsFlat m iv hidden encO).length = iv.length := by
  rw [stepLogitsFlat, List.length_flatten]
  have hcong : ((List.range iv.length).map fun b =>
      ((stepB m iv hidden encO b).1.map fun fw => m.out fw.1)).map List.length =
      (List.range iv.length).map fun _ => 1 := by
    rw [List.map_map]
    refine List.map_congr_left fun b hb => ?_
    simp only [Function.comp]
    rw [List.length_map, stepB_length]
    have hblt := List.mem_range.mp hb
    have hgd : iv.getD b [] = iv[b] := by
      rw [List.getD_eq_getElem?_getD, List.getElem?_eq_getElem hblt]
      rfl
    rw [hgd]
    exact hrows _ (List.getElem_mem hblt)
  rw [hcong]
  simp

theorem updateLengths_mem (eos step newLen : ℕ) (syms lens : List ℕ) :
    ∀ l ∈ updateLengths eos step newLen syms lens, l = newLen ∨ l ∈ lens := by
  intro l hl
  rw [updateLengths] at hl
  obtain ⟨b, hb, hfb⟩ := List.mem_map.mp hl
  have hblt := List.mem_range.mp hb
  have hmem : lens.getD b 0 ∈ lens := by
    have hgd : lens.getD b 0 = lens[b] := by
      rw [List.getD_eq_getElem?_getD, List.getElem?_eq_getElem hblt]
      rfl
    rw [hgd]
    exact List.getElem_mem hblt
  rcases hget : syms.get? b with _ | s
  · rw [hget] at hfb
    right; rw [← hfb]; exact hmem
  · rw [hget] at hfb
    simp only at hfb
    by_cases hc : step < lens.getD b 0 ∧ s = eos
    · rw [if_pos hc] at hfb
      left; exact hfb.symm
    · rw [if_neg hc] at hfb
      right; rw [← hfb]; exact hmem

theorem decode_lengths_mem {α σ : Type} [LinearOrderedField α] (m : Model α σ)
    (step : ℕ) (out attn : List (List α)) (st : DecState α) :
    ∀ l ∈ (decode m step out attn st).1.lengths,
      l = st.sequence_symbols.length + 1 ∨ l ∈ st.lengths := by
  intro l hl
  by_cases hf : m.force_max_len
  · right; simpa [decode, hf] using hl
  · have hf' : m.force_max_len = false := by simpa using hf
    simp only [decode, hf', Bool.false_eq_true, if_false] at hl
    have := updateLengths_mem m.eos_id step
      (st.sequence_symbols ++ [out.map argmaxIdx]).length (out.map argmaxIdx)
      st.lengths l hl
    simpa using this

theorem greedyLoop_outputs_length {α σ : Type} [LinearOrderedField α]
    (m : Model α σ) (encO : Option (List (List (List α))))
    (f : List α → List α) (n : ℕ) :
    ∀ (di : ℕ) (inp : List (List ℕ)) (hidden : Option (List (σ × σ)))
      (st : DecState α),
      (greedyLoop m encO f n di inp hidden st).1.decoder_outputs.length =
        st.decoder_outputs.length + n := by
  induction n with
  | zero => intro di inp hidden st; rfl
  | succ k ih =>
    intro di inp hidden st
    rw [greedyLoop, ih]
    simp [decode]
    omega

theorem greedyLoop_lengths_le {α σ : Type} [LinearOrderedField α]
    (m : Model α σ) (encO : Option (List (List (List α))))
    (f : List α → List α) (M : ℕ) (n : ℕ) :
    ∀ (di : ℕ) (inp : List (List ℕ)) (hidden : Option (List (σ × σ)))
      (st : DecState α),
      (∀ l ∈ st.lengths, l ≤ M) → st.sequence_symbols.length + n ≤ M →
      ∀ l ∈ (greedyLoop m encO f n di inp hidden st).1.lengths, l ≤ M := by
  induction n with
  | zero => intro di inp hidden st hle hn; exact hle
  | succ k ih =>
    intro di inp hidden st hle hn
    rw [greedyLoop]
    refine ih _ _ _ _ ?_ ?_
    · intro l hl
      rcases decode_lengths_mem m di _ _ st l hl with h1 | h2
      · omega
      · exact hle l h2
    · rw [decode_seq_length]
      omega

theorem stepLogitsFlat_length_rows {α σ : Type} (m : Model α σ)
    (iv : List (List ℕ)) (hidden : Option (List (σ × σ)))
    (encO : List (List (List α))) (w : ℕ) (hrows : ∀ r ∈ iv, r.length = w) :
    (stepLogitsFlat m iv hidden encO).length = iv.length * w := by
  rw [stepLogitsFlat, List.length_flatten]
  have hcong : ((List.range iv.length).map fun b =>
      ((stepB m iv hidden encO b).1.map fun fw => m.out fw.1)).map List.length =
      (List.range iv.length).map fun _ => w := by
    rw [List.map_map]
    refine List.map_congr_left fun b hb => ?_
    simp only [Function.comp]
    rw [List.length_map, stepB_length]
    have hblt := List.mem_range.mp hb
    have hgd : iv.getD b [] = iv[b] := by
      rw [List.getD_eq_getElem?_getD, List.getElem?_eq_getElem hblt]
      rfl
    rw [hgd]
    exact hrows _ (List.getElem_mem hblt)
  rw [hcong, List.map_const', List.sum_replicate, List.length_range, smul_eq_mul]

theorem headD_map_range {β : Type} (f : ℕ → β) (n : ℕ) (d : β) (h : 0 < n) :
    ((List.range n).map f).headD d = f 0 := by
  rw [List.headD_eq_head?_getD, List.head?_eq_getElem?, List.getElem?_map,
    List.getElem?_range h]
  rfl

theorem forwardStep_head_row_length {α σ : Type} [LinearOrderedField α]
    (m : Model α σ) (iv : List (List ℕ)) (hidden : Option (List (σ × σ)))
    (encO : Option (List (List (List α)))) (f : List α → List α)
    (pm : Option (List (List ℕ))) (w : ℕ)
    (hne : 0 < iv.length) (hrows : ∀ r ∈ iv, r.length = w) :
    ((forwardStep m iv hidden encO f pm).1.headD []).length = w := by
  have hhead : (iv.headD []).length = w := by
    have hgd : iv.headD [] = iv[0] := by
      rw [List.headD_eq_head?_getD, List.head?_eq_getElem?, List.getElem?_eq_getElem hne]
      rfl
    rw [hgd]
    exact hrows _ (List.getElem_mem hne)
  unfold forwardStep
  rw [headD_map_range _ _ _ hne, Nat.zero_mul, List.drop_zero, List.length_take,
    List.length_map]
  have hl2 : (if (iv.headD []).length = 1 then
      match pm with
      | some hist => scatterHist hist (stepLogitsFlat m iv hidden (encO.getD []))
      | none => stepLogitsFlat m iv hidden (encO.getD [])
      else stepLogitsFlat m iv hidden (encO.getD [])).length =
      iv.length * w := by
    split
    · split
      · rw [scatterHist_length, stepLogitsFlat_length_rows _ _ _ _ _ hrows]
      · rw [stepLogitsFlat_length_rows _ _ _ _ _ hrows]
    · rw [stepLogitsFlat_length_rows _ _ _ _ _ hrows]
  rw [hl2, hhead]
  exact Nat.min_eq_left (Nat.le_mul_of_pos_left w hne)

theorem decode_outputs_length {α σ : Type} [LinearOrderedField α]
    (m : Model α σ) (step : ℕ) (out attn : List (List α)) (st : DecState α) :
    (decode m step out attn st).1.decoder_outputs.length =
      st.decoder_outputs.length + 1 := by
  simp [decode]

theorem decodeFold_outputs_length {α σ : Type} [LinearOrderedField α]
    (m : Model α σ) (F G : ℕ → List (List α)) (xs : List ℕ) :
    ∀ st : DecState α,
      ((xs.foldl (fun s di => (decode m di (F di) (G di) s).1) st).decoder_outputs.length) =
        st.decoder_outputs.length + xs.length := by
  induction xs with
  | nil => intro st; rfl
  | cons x rest ih =>
    intro st
    rw [List.foldl_cons, ih, decode_outputs_length, List.length_cons]
    omega

theorem teacherForcedBranch_outputs_length {α σ : Type} [LinearOrderedField α]
    (m : Model α σ) (ins : List (List ℕ)) (hidden : Option (List (σ × σ)))
    (encO : Option (List (List (List α)))) (f : List α → List α)
    (st : DecState α) :
    (teacherForcedBranch m ins hidden encO f st).1.decoder_outputs.length =
      st.decoder_outputs.length +
        ((forwardStep m (ins.map List.dropLast) hidden encO f none).1.headD []).length := by
  unfold teacherForcedBranch
  rw [decodeFold_outputs_length, List.length_range]

theorem forwardStep_row_width1 {α σ : Type} [LinearOrderedField α]
    (m : Model α σ) (iv : List (List ℕ)) (hidden : Option (List (σ × σ)))
    (encO : Option (List (List (List α)))) (hist : List (List ℕ)) (b : ℕ)
    (hw : (iv.headD []).length = 1) (hrows : ∀ r ∈ iv, r.length = 1)
    (hb : b < iv.length) :
    (forwardStep m iv hidden encO id (some hist)).1.getD b [] =
      [(scatterHist hist (stepLogitsFlat m iv hidden (encO.getD []))).getD b []] := by
  unfold forwardStep
  simp only [hw, if_pos, List.map_id]
  rw [getD_map_range _ _ _ _ hb]
  have hlen : (scatterHist hist (stepLogitsFlat m iv hidden (encO.getD []))).length =
      iv.length := by
    rw [scatterHist_length, stepLogitsFlat_length_ones _ _ _ _ hrows]
  have hblt : b < (scatterHist hist (stepLogitsFlat m iv hidden (encO.getD []))).length := by
    rw [hlen]; exact hb
  rw [Nat.mul_one, List.drop_eq_getElem_cons hblt, List.take_succ_cons,
    List.take_zero, List.getD_eq_getElem?_getD, List.getElem?_eq_getElem hblt]
  rfl

/-! ## Claim theorems -/

/-- C3.  The length vector starts at `max_length` everywhere; a `decode`
call at step `i` sets entry `b` to `i + 1` exactly when `force_max_len`
is off, the recorded length still exceeds `i`, and the emitted arg-max
symbol equals the EOS id (otherwise it is unchanged); an already
finalized entry (value at most the processed-step count) is never
changed by further decoding; and with `force_max_len` on the vector is
never touched at all. -/
theorem claim_C3 {α σ : Type} [LinearOrderedField α] :
    (∀ B M b : ℕ, b < B → (initDecState α B M).lengths.getD b 0 = M) ∧
    (∀ (m : Model α σ) (step : ℕ) (out attn : List (List α)) (st : DecState α)
        (b : ℕ), st.sequence_symbols.length = step → b < out.length →
      (decode m step out attn st).1.lengths.getD b 0 =
        if m.force_max_len = false ∧ step < st.lengths.getD b 0 ∧
            argmaxIdx (out.getD b []) = m.eos_id
        then step + 1 else st.lengths.getD b 0) ∧
    (∀ (m : Model α σ) (outs : List (List (List α) × List (List α)))
        (st : DecState α) (b : ℕ),
      st.lengths.getD b 0 ≤ st.sequence_symbols.length →
      (decodeRun m outs st).lengths.getD b 0 = st.lengths.getD b 0) ∧
    (∀ (m : Model α σ) (outs : List (List (List α) × List (List α)))
        (st : DecState α), m.force_max_len = true →
      (decodeRun m outs st).lengths = st.lengths) := by
  refine ⟨?_, ?_, ?_, ?_⟩
  · intro B M b hb
    simp [initDecState, List.getD_eq_getElem?_getD, List.getElem?_replicate, hb]
  · intro m step out attn st b h1 h2
    exact decode_lengths_getD m step out attn st b h1 h2
  · intro m outs st b h
    exact decodeRun_frozen m outs st b h
  · intro m outs st hf
    exact decodeRun_force m outs st hf

/-- C3 witness: concrete initialization, one EOS-emitting decode step,
one already-finalized run, and one forced-max-length run. -/
theorem claim_C3_witness :
    (0 < 2 ∧ (initDecState ℚ 2 5).lengths.getD 0 0 = 5) ∧
    ((decode mW 0 [[(0 : ℚ), 0, 1]] [] (initDecState ℚ 1 5)).1.lengths.getD 0 0 =
      if mW.force_max_len = false ∧ 0 < (initDecState ℚ 1 5).lengths.getD 0 0 ∧
          argmaxIdx (([[(0 : ℚ), 0, 1]]).getD 0 []) = mW.eos_id
      then 0 + 1 else (initDecState ℚ 1 5).lengths.getD 0 0) ∧
    ((decodeRun mW outsW stW).lengths.getD 0 0 = stW.lengths.getD 0 0) ∧
    ((decodeRun mWF outsW (initDecState ℚ 1 5)).lengths =
      (initDecState ℚ 1 5).lengths) :=
  ⟨⟨by decide, (claim_C3 (α := ℚ) (σ := ℕ)).1 2 5 0 (by decide)⟩,
   (claim_C3 (α := ℚ) (σ := ℕ)).2.1 mW 0 [[0, 0, 1]] [] (initDecState ℚ 1 5) 0
     (by decide) (by decide),
   (claim_C3 (α := ℚ) (σ := ℕ)).2.2.1 mW outsW stW 0 (by decide),
   (claim_C3 (α := ℚ) (σ := ℕ)).2.2.2 mWF outsW (initDecState ℚ 1 5) (by decide)⟩

/-- C9.  With step width 1 and a supplied history, every logit at a
history token position is overwritten with the constant `1e-18` (the
overwrite survives later history entries because each one writes the
same constant); with step width above 1, or with no history, the
history argument has no effect on `forward_step`. -/
theorem claim_C9 {α σ : Type} [LinearOrderedField α] :
    (∀ (m : Model α σ) (iv : List (List ℕ)) (hidden : Option (List (σ × σ)))
        (encO : Option (List (List (List α)))) (hist : List (List ℕ)) (b i : ℕ),
      (iv.headD []).length = 1 → (∀ r ∈ iv, r.length = 1) → b < iv.length →
      i < hist.length → b < (hist.getD i []).length →
      (hist.getD i []).getD b 0 <
        ((stepLogitsFlat m iv hidden (encO.getD [])).getD b []).length →
      (((forwardStep m iv hidden encO id (some hist)).1.getD b []).getD 0 []).getD
          ((hist.getD i []).getD b 0) 0 = tiny α) ∧
    (∀ (m : Model α σ) (iv : List (List ℕ)) (hidden : Option (List (σ × σ)))
        (encO : Option (List (List (List α)))) (f : List α → List α)
        (hist : List (List ℕ)), (iv.headD []).length ≠ 1 →
      forwardStep m iv hidden encO f (some hist) =
        forwardStep m iv hidden encO f none) := by
  constructor
  · intro m iv hidden encO hist b i hw hrows hb hi hbe hp
    rw [forwardStep_row_width1 m iv hidden encO hist b hw hrows hb]
    have hlen : b < (stepLogitsFlat m iv hidden (encO.getD [])).length := by
      rw [stepLogitsFlat_length_ones _ _ _ _ hrows]; exact hb
    exact scatterHist_getD hist _ b i hi hlen hbe hp
  · intro m iv hidden encO f hist hw
    have hw' : (iv.head?.getD []).length ≠ 1 := by
      simpa [List.headD_eq_head?_getD] using hw
    simp [forwardStep, hw']

/-- C9 witness: a width-1 step on `mW` with history `[[2], [0]]`
overwrites logit position 2 (and position 0) with `1e-18`; a width-2
step ignores the history entirely. -/
theorem claim_C9_witness :
    ((([[2], [0]] : List (List ℕ)).getD 0 []).getD 0 0 <
       ((stepLogitsFlat mW [[1]] none
           ((none : Option (List (List (List ℚ)))).getD [])).getD 0 []).length ∧
     (((forwardStep mW [[1]] none none id (some [[2], [0]])).1.getD 0 []).getD 0
         []).getD ((([[2], [0]] : List (List ℕ)).getD 0 []).getD 0 0) 0 = tiny ℚ) ∧
    forwardStep mW [[1, 2]] none none id (some [[0]]) =
      forwardStep mW [[1, 2]] none none id none :=
  ⟨⟨by decide,
    (claim_C9 (α := ℚ) (σ := ℕ)).1 mW [[1]] none none [[2], [0]] 0 0 (by decide)
      (by decide) (by decide) (by decide) (by decide) (by decide)⟩,
   (claim_C9 (α := ℚ) (σ := ℕ)).2 mW [[1, 2]] none none id [[0]] (by decide)⟩

/-- C7.  When teacher forcing fires on a batch of `B ≥ 1` rows of length
`L + 1` (and the call survives the `beamStates` subscription), the
validated decode length is `L` (input length minus the start token) and
`forward` returns exactly `L` per-step distributions. -/
theorem claim_C7 {α σ : Type} [LinearOrderedField α] (m : Model α σ)
    (lg : α → α) (bs : BeamStates α σ) (encH : Option (List (σ × σ)))
    (encO : Option (List (List (List α)))) (f : List α → List α)
    (tfr : α) (max_len : ℕ) (ss : Bool) (coin : α)
    (ins : List (List ℕ)) (B L bsz M : ℕ)
    (tk0 : List (List (ℕ × ℕ))) (c0 : List (List σ))
    (hB : 0 < B) (hL : 0 < L) (hBatch : ins.length = B)
    (hRows : ∀ row ∈ ins, row.length = L + 1) (hTF : coin < tfr)
    (hVal : validateArgs { m with max_length := max_len } (some ins) encH encO tfr =
      Except.ok (ins, bsz, M))
    (htk : bs.topkInds.head? = some tk0) (hc : bs.cells.head? = some c0) :
    M = L ∧
    ∃ r, (forward m lg (some ins) (some bs) encH encO f tfr max_len ss coin).2 =
        Except.ok r ∧ r.decoder_outputs.length = L := by
  have hne : 0 < ins.length := by rw [hBatch]; exact hB
  have hhead : (ins.headD []).length = L + 1 := by
    have hgd : ins.headD [] = ins[0] := by
      rw [List.headD_eq_head?_getD, List.head?_eq_getElem?, List.getElem?_eq_getElem hne]
      rfl
    rw [hgd]
    exact hRows _ (List.getElem_mem hne)
  have hM : M = L := by
    unfold validateArgs at hVal
    split at hVal
    · exact absurd hVal (by simp)
    · simp only [Except.ok.injEq, Prod.mk.injEq] at hVal
      rw [← hVal.2.2, hhead]
      omega
  refine ⟨hM, ?_⟩
  have hdec : decide (coin < tfr) = true := decide_eq_true hTF
  simp only [forward, hVal, htk, hc, hdec, if_true]
  refine ⟨_, rfl, ?_⟩
  rw [teacherForcedBranch_outputs_length]
  rw [forwardStep_head_row_length _ _ _ _ _ _ L (by simpa using hne) ?_]
  · simp [initDecState]
  · intro r hr
    obtain ⟨row, hrow, rfl⟩ := List.mem_map.mp hr
    rw [List.length_dropLast, hRows _ hrow]
    omega

/-- C7 witness: one batch row `[0, 1, 2]` of length 3 under certain
teacher forcing yields decode length 2 and exactly 2 step
distributions. -/
theorem claim_C7_witness :
    (2 : ℕ) = 2 ∧
    ∃ r, (forward mW id (some [[0, 1, 2]]) (some bsW) none none id 1 6 false 0).2 =
        Except.ok r ∧ r.decoder_outputs.length = 2 :=
  claim_C7 mW id bsW none none id 1 6 false 0 [[0, 1, 2]] 1 2 1 2
    [[(0, 0)], [(0, 0)]] [[5], [5]] (by decide) (by decide) (by decide)
    (by decide) (by decide) (by rfl) (by rfl) (by rfl)

/-- C8.  When teacher forcing does not fire and beam mode is off (and the
call survives the `beamStates` subscription), the greedy loop runs
exactly `max_length` iterations, producing `max_length` per-step
distributions, and every returned length-vector entry is at most
`max_length`. -/
theorem claim_C8 {α σ : Type} [LinearOrderedField α] (m : Model α σ)
    (lg : α → α) (inputs : Option (List (List ℕ))) (bs : BeamStates α σ)
    (encH : Option (List (σ × σ))) (encO : Option (List (List (List α))))
    (f : List α → List α) (tfr : α) (max_len : ℕ) (ss : Bool) (coin : α)
    (ins : List (List ℕ)) (bsz M : ℕ)
    (tk0 : List (List (ℕ × ℕ))) (c0 : List (List σ))
    (hTF : ¬coin < tfr) (hBeam : m.beamSearchMode = false)
    (hVal : validateArgs { m with max_length := max_len } inputs encH encO tfr =
      Except.ok (ins, bsz, M))
    (htk : bs.topkInds.head? = some tk0) (hc : bs.cells.head? = some c0) :
    ∃ r, (forward m lg inputs (some bs) encH encO f tfr max_len ss coin).2 =
        Except.ok r ∧
      r.decoder_outputs.length = M ∧ ∀ l ∈ r.ret.lengths, l ≤ M := by
  have hdec : decide (coin < tfr) = false := decide_eq_false hTF
  simp only [forward, hVal, htk, hc, hdec, Bool.false_eq_true, if_false]
  simp only [hBeam, Bool.false_eq_true, if_false]
  refine ⟨_, rfl, ?_, ?_⟩
  · rw [greedyLoop_outputs_length]
    simp [initDecState]
  · refine greedyLoop_lengths_le _ encO f M _ _ _ _ _ ?_ ?_
    · intro l hl
      simp [initDecState] at hl
      omega
    · simp [initDecState]

/-- C8 witness: a default greedy call with `max_len = 3` produces 3 step
distributions and a length vector bounded by 3. -/
theorem claim_C8_witness :
    ∃ r, (forward mW id none (some bsW) none none id 0 3 false 1).2 =
        Except.ok r ∧
      r.decoder_outputs.length = 3 ∧ ∀ l ∈ r.ret.lengths, l ≤ 3 :=
  claim_C8 mW id none bsW none none id 0 3 false 1 [[0]] 1 3
    [[(0, 0)], [(0, 0)]] [[5], [5]] (by decide) (by decide) (by rfl)
    (by rfl) (by rfl)

/-- C4.  `forward` raises `InvalidConfiguration` (a `ValueError` from
`_validate_args`) exactly when attention is enabled without encoder
outputs or when no input sequence is supplied with a positive
teacher-forcing ratio; every validation failure aborts `forward` with
the raised error and no partial output (only the `self.max_length`
assignment, which precedes validation, has happened). -/
theorem claim_C4 {α σ : Type} [LinearOrderedField α] (m : Model α σ)
    (lg : α → α) (inputs : Option (List (List ℕ)))
    (beamStates : Option (BeamStates α σ)) (encH : Option (List (σ × σ)))
    (encO : Option (List (List (List α)))) (f : List α → List α)
    (tfr : α) (max_len : ℕ) (ss : Bool) (coin : α) :
    ((validateArgs m inputs encH encO tfr).isOk = true ↔
      ¬((m.use_attention = true ∧ encO = none) ∨ (inputs = none ∧ 0 < tfr))) ∧
    (∀ e, validateArgs { m with max_length := max_len } inputs encH encO tfr =
        Except.error e →
      forward m lg inputs beamStates encH encO f tfr max_len ss coin =
        ({ m with max_length := max_len }, Except.error e)) := by
  constructor
  · unfold validateArgs
    by_cases hA : m.use_attention = true ∧ encO = none
    · simp [hA, Except.isOk, Except.toBool]
    · cases inputs with
      | none =>
        by_cases hT : (0 : α) < tfr <;> simp [hA, hT, Except.isOk, Except.toBool]
      | some ins => simp [hA, Except.isOk, Except.toBool]
  · intro e he
    simp [forward, he]

/-- C4 witness: with attention enabled and no encoder outputs, the
validation-failure biconditional holds and `forward` aborts with the
attention error. -/
theorem claim_C4_witness :
    ((validateArgs mWA none none none (0 : ℚ)).isOk = true ↔
      ¬((mWA.use_attention = true ∧
           (none : Option (List (List (List ℚ)))) = none) ∨
        ((none : Option (List (List ℕ))) = none ∧ (0 : ℚ) < 0))) ∧
    forward mWA id none none none none id 0 5 false 0 =
      ({ mWA with max_length := 5 }, Except.error PyError.attnNeedsEncoderOutputs) :=
  ⟨(claim_C4 mWA id none none none none id 0 5 false 0).1,
   (claim_C4 mWA id none none none none id 0 5 false 0).2
     PyError.attnNeedsEncoderOutputs (by rfl)⟩

/-- C10.  `forward` assigns its `max_len` argument to `self.max_length`
before anything else and the mutation persists in the returned model;
when no inputs are given (and validation passes) the decode length that
`_validate_args` reads back is that freshly assigned per-call value,
never the constructor's `max_len`. -/
theorem claim_C10 {α σ : Type} [LinearOrderedField α] (m : Model α σ)
    (lg : α → α) (inputs : Option (List (List ℕ)))
    (beamStates : Option (BeamStates α σ)) (encH : Option (List (σ × σ)))
    (encO : Option (List (List (List α)))) (f : List α → List α)
    (tfr : α) (max_len : ℕ) (ss : Bool) (coin : α) :
    (forward m lg inputs beamStates encH encO f tfr max_len ss coin).1 =
      { m with max_length := max_len } ∧
    (¬(m.use_attention = true ∧ encO = none) → tfr ≤ 0 →
      ∃ ins bsz, validateArgs { m with max_length := max_len } none encH encO tfr =
        Except.ok (ins, bsz, max_len)) := by
  constructor
  · cases hv : validateArgs { m with max_length := max_len } inputs encH encO tfr with
    | error e => simp [forward, hv]
    | ok v =>
      rcases beamStates with _ | bs
      · simp [forward, hv]
      · rcases htk : bs.topkInds.head? with _ | tk0 <;>
          rcases hc : bs.cells.head? with _ | c0 <;>
          simp [forward, hv, htk, hc, apply_ite Prod.fst]
  · intro hA hT
    have hT' : ¬(0 : α) < tfr := not_lt.mpr hT
    have hA' : ¬(({ m with max_length := max_len } : Model α σ).use_attention = true ∧
        encO = none) := by
      simpa using hA
    simp [validateArgs, hA', hT']

/-- C10 witness: a call with `max_len = 9` on a model constructed with
`max_len = 7` returns a model carrying `max_length = 9`, and an
inputs-absent validation against the updated model reads back decode
length 9. -/
theorem claim_C10_witness :
    (forward mW id none (some bsW) none none id 0 9 false 0).1 =
      { mW with max_length := 9 } ∧
    ∃ ins bsz, validateArgs { mW with max_length := 9 } none none none (0 : ℚ) =
      Except.ok (ins, bsz, 9) :=
  ⟨(claim_C10 mW id none (some bsW) none none id 0 9 false 0).1,
   (claim_C10 mW id none (some bsW) none none id 0 9 false 0).2
     (by decide) (by decide)⟩

/-- C1.  Whenever validation passes, a `forward` call with
`beamStates = None` does not complete normally: it fails at the
unconditional `beamStates['topkInds'][0].shape[1]` subscription with a
`TypeError`, returning no result bundle at all (contradicting the
documented optional-argument contract). -/
theorem claim_C1 {α σ : Type} [LinearOrderedField α] (m : Model α σ)
    (lg : α → α) (inputs : Option (List (List ℕ)))
    (encH : Option (List (σ × σ))) (encO : Option (List (List (List α))))
    (f : List α → List α) (tfr : α) (max_len : ℕ) (ss : Bool) (coin : α)
    (hVal : (validateArgs { m with max_length := max_len } inputs encH encO tfr).isOk = true) :
    (forward m lg inputs none encH encO f tfr max_len ss coin).2 =
      Except.error PyError.noneNotSubscriptable := by
  unfold forward
  cases hv : validateArgs { m with max_length := max_len } inputs encH encO tfr with
  | error e =>
    rw [hv] at hVal
    simp [Except.isOk, Except.toBool] at hVal
  | ok v => simp [hv]

/-- C1 witness: a fully default call (`inputs`, `beamStates`, hidden
state and encoder outputs all absent, zero teacher forcing) passes
validation yet aborts with the `NoneType` subscription error. -/
theorem claim_C1_witness :
    (validateArgs { mW with max_length := 4 } none none none (0 : ℚ)).isOk = true ∧
    (forward mW id none none none none id 0 4 false 0).2 =
      Except.error PyError.noneNotSubscriptable :=
  ⟨by decide, claim_C1 mW id none none none id 0 4 false 0 (by decide)⟩

theorem insertLe_eq_orderedInsert {α : Type} [LinearOrder α] (x : ℕ × α)
    (l : List (ℕ × α)) :
    insertLe x l = List.orderedInsert (fun p q : ℕ × α => p.2 ≤ q.2) x l := by
  induction l with
  | nil => rfl
  | cons y ys ih =>
    rw [insertLe, List.orderedInsert]
    by_cases h : x.2 ≤ y.2
    · rw [if_pos h, if_pos h]
    · rw [if_neg h, if_neg h, ih]

theorem sortLe_eq_insertionSort {α : Type} [LinearOrder α] (l : List (ℕ × α)) :
    sortLe l = List.insertionSort (fun p q : ℕ × α => p.2 ≤ q.2) l := by
  induction l with
  | nil => rfl
  | cons x xs ih =>
    rw [sortLe, List.insertionSort, ih, insertLe_eq_orderedInsert]

theorem sortLe_length {α : Type} [LinearOrder α] (l : List (ℕ × α)) :
    (sortLe l).length = l.length := by
  rw [sortLe_eq_insertionSort, List.length_insertionSort]

theorem mem_sortLe {α : Type} [LinearOrder α] {x : ℕ × α} {l : List (ℕ × α)}
    (h : x ∈ sortLe l) : x ∈ l := by
  rw [sortLe_eq_insertionSort] at h
  exact (List.perm_insertionSort _ l).mem_iff.mp h

theorem map_snd_sortLe {α : Type} [LinearOrder α] (l : List (ℕ × α)) :
    (sortLe l).map Prod.snd =
      List.insertionSort (fun a b : α => a ≤ b) (l.map Prod.snd) := by
  rw [sortLe_eq_insertionSort]
  exact List.map_insertionSort (fun p q : ℕ × α => p.2 ≤ q.2)
    (fun a b : α => a ≤ b) Prod.snd l (fun a _ b _ => Iff.rfl)



theorem map_getD_range_eq {β : Type} (l : List β) (d : β) (n : ℕ)
    (h : l.length = n) : (List.range n).map (fun j => l.getD j d) = l := by
  apply List.ext_getElem
  · simp [h]
  · intro i h1 h2
    have hi : i < n := by simpa using h1
    rw [List.getElem_map, List.getElem_range]
    rw [List.getD_eq_getElem?_getD, List.getElem?_eq_getElem h2]
    rfl

theorem flatten_getD_uniform {β : Type} (V : ℕ) (hV : 0 < V) (d : β) :
    ∀ (L : List (List β)) (i : ℕ), (∀ x ∈ L, x.length = V) →
      i < L.length * V →
      L.flatten.getD i d = (L.getD (i / V) []).getD (i % V) d := by
  intro L
  induction L with
  | nil => intro i _ hi; simp at hi
  | cons x rest ih =>
    intro i hlen hi
    rw [List.flatten_cons]
    by_cases hiV : i < V
    · have hx : x.length = V := hlen x (by simp)
      have hdiv : i / V = 0 := Nat.div_eq_of_lt hiV
      have hmod : i % V = i := Nat.mod_eq_of_lt hiV
      rw [hdiv, hmod]
      have : (x ++ rest.flatten).getD i d = x.getD i d := by
        rw [List.getD_eq_getElem?_getD, List.getElem?_append_left (by omega),
          ← List.getD_eq_getElem?_getD]
      rw [this]
      rfl
    · push_neg at hiV
      have hx : x.length = V := hlen x (by simp)
      have happ : (x ++ rest.flatten).getD i d = rest.flatten.getD (i - V) d := by
        rw [List.getD_eq_getElem?_getD, List.getElem?_append_right (by omega),
          ← List.getD_eq_getElem?_getD, hx]
      rw [happ]
      have hi' : i < rest.length * V + V := by
        rw [List.length_cons, Nat.succ_mul] at hi
        exact hi
      have hrec := ih (i - V) (fun y hy => hlen y (by simp [hy])) (by omega)
      rw [hrec]
      have hdiv : i / V = (i - V) / V + 1 := by
        conv_lhs => rw [← Nat.sub_add_cancel hiV]
        rw [Nat.add_div_right _ hV]
      have hmod : i % V = (i - V) % V := by
        conv_lhs => rw [← Nat.sub_add_cancel hiV]
        rw [Nat.add_mod_right]
      rw [hdiv, hmod]
      rfl



theorem flatten_length_uniform {β : Type} (L : List (List β)) (V : ℕ)
    (h : ∀ x ∈ L, x.length = V) : L.flatten.length = L.length * V := by
  rw [List.length_flatten]
  have hc : L.map List.length = L.map fun _ => V :=
    List.map_congr_left fun x hx => h x hx
  rw [hc, List.map_const', List.sum_replicate, smul_eq_mul]

theorem range_map_getD_snd {α : Type} (l : List (ℕ × α)) (n : ℕ) (d : ℕ × α)
    (h : l.length = n) :
    (List.range n).map (fun j => (l.getD j d).2) = l.map Prod.snd := by
  apply List.ext_getElem
  · simp [h]
  · intro i h1 h2
    have hi : i < n := by simpa using h1
    have hil : i < l.length := by omega
    rw [List.getElem_map, List.getElem_range, List.getElem_map]
    rw [List.getD_eq_getElem?_getD, List.getElem?_eq_getElem hil]
    rfl

theorem getD_mem {β : Type} (l : List β) (j : ℕ) (d : β) (h : j < l.length) :
    l.getD j d ∈ l := by
  rw [List.getD_eq_getElem?_getD, List.getElem?_eq_getElem h]
  exact List.getElem_mem h

theorem getD_map_of_lt {β γ : Type} (f : β → γ) (l : List β) (q : ℕ) (d : γ)
    (d' : β) (h : q < l.length) :
    (l.map f).getD q d = f (l.getD q d') := by
  rw [List.getD_eq_getElem?_getD, List.getElem?_map, List.getElem?_eq_getElem h,
    List.getD_eq_getElem?_getD, List.getElem?_eq_getElem h]
  rfl

/-- C5.  `getTopkIndsnScores` flattens the per-batch `K x V` candidate
matrix, selects the `topk` smallest scores (in ascending order, equal to
the first `topk` entries of the sorted flattened candidates), returns
exactly `topk` hypotheses per batch element, and decodes every selected
flat index `idx` into the pair (`idx` div `V`, `idx` mod `V`), which
re-addresses the original candidate entry carrying that score. -/
theorem claim_C5 {α : Type} [LinearOrderedField α] (topk : ℕ)
    (candScores : List (List (List (List α)))) (K B V : ℕ) (b : ℕ)
    (hK : candScores.length = K)
    (hB : (candScores.headD []).length = B)
    (hV : (((candScores.headD []).headD []).headD []).length = V)
    (hreg : ∀ k < K, ∀ b' < B, (((candScores.getD k []).getD b' []).getD 0 []).length = V)
    (hVpos : 0 < V) (htopk : topk ≤ K * V) (hb : b < B) :
    ((List.range topk).map fun j =>
        ((getTopkIndsnScores topk candScores).2.getD j []).getD b 0) =
      (List.insertionSort (fun x y : α => x ≤ y) (flatRow candScores b)).take topk ∧
    ((sortLe (flatRow candScores b).enum).take topk).length = topk ∧
    (∀ j < topk, ∃ idx,
      idx < K * V ∧
      ((getTopkIndsnScores topk candScores).1.getD j []).getD b (0, 0) =
        (idx / V, idx % V) ∧
      idx / V < K ∧ idx % V < V ∧
      ((getTopkIndsnScores topk candScores).2.getD j []).getD b 0 =
        (((candScores.getD (idx / V) []).getD b []).getD 0 []).getD (idx % V) 0) := by
  have hcomp : ∀ x ∈ (candScores.map fun kS => (kS.getD b []).getD 0 []),
      x.length = V := by
    intro x hx
    obtain ⟨kS, hkS, rfl⟩ := List.mem_map.mp hx
    obtain ⟨k, hk, hEq⟩ := List.mem_iff_getElem.mp hkS
    have hgd : candScores.getD k [] = candScores[k] := by
      rw [List.getD_eq_getElem?_getD, List.getElem?_eq_getElem hk]
      rfl
    rw [← hEq, ← hgd]
    exact hreg k (by omega) b hb
  have hflatlen : (flatRow candScores b).length = K * V := by
    rw [flatRow, flatten_length_uniform _ V hcomp, List.length_map, hK]
  have hsellen : ((sortLe (flatRow candScores b).enum).take topk).length = topk := by
    rw [List.length_take, sortLe_length, List.enum_length, hflatlen]
    omega
  have hscore : ∀ j < topk,
      ((getTopkIndsnScores topk candScores).2.getD j []).getD b 0 =
        (((sortLe (flatRow candScores b).enum).take topk).getD j (0, 0)).2 := by
    intro j hj
    unfold getTopkIndsnScores
    rw [getD_map_range _ _ _ _ hj, hB, getD_map_range _ _ _ _ hb]
  have hinds : ∀ j < topk,
      ((getTopkIndsnScores topk candScores).1.getD j []).getD b (0, 0) =
        ((((sortLe (flatRow candScores b).enum).take topk).getD j (0, 0)).1 / V,
         (((sortLe (flatRow candScores b).enum).take topk).getD j (0, 0)).1 % V) := by
    intro j hj
    unfold getTopkIndsnScores
    rw [getD_map_range _ _ _ _ hj, hB, getD_map_range _ _ _ _ hb, hV]
  refine ⟨?_, hsellen, ?_⟩
  · have h1 : ((List.range topk).map fun j =>
        ((getTopkIndsnScores topk candScores).2.getD j []).getD b 0) =
        (List.range topk).map fun j =>
          ((((sortLe (flatRow candScores b).enum).take topk).getD j (0, 0)).2) :=
      List.map_congr_left fun j hj => hscore j (List.mem_range.mp hj)
    rw [h1, range_map_getD_snd _ _ _ hsellen, List.map_take, map_snd_sortLe,
      List.enum_map_snd]
  · intro j hj
    have hjsel : j < ((sortLe (flatRow candScores b).enum).take topk).length := by
      omega
    set q := (((sortLe (flatRow candScores b).enum).take topk).getD j (0, 0)) with hqdef
    have hmem : q ∈ (flatRow candScores b).enum := by
      have h2 := getD_mem _ j ((0 : ℕ), (0 : α)) hjsel
      rw [← hqdef] at h2
      exact mem_sortLe (List.mem_of_mem_take h2)
    have henum := List.mem_enum_iff_getElem?.mp hmem
    obtain ⟨hlt, hval⟩ := List.getElem?_eq_some.mp henum
    have hidx : q.1 < K * V := by
      rw [← hflatlen]
      exact hlt
    refine ⟨q.1, hidx, hinds j hj, (Nat.div_lt_iff_lt_mul hVpos).mpr hidx,
      Nat.mod_lt _ hVpos, ?_⟩
    have hflatgetD : (flatRow candScores b).getD q.1 0 = q.2 := by
      rw [List.getD_eq_getElem?_getD, List.getElem?_eq_getElem hlt, hval]
      rfl
    have hq1 : q.1 / V < candScores.length := by
      rw [hK]
      exact (Nat.div_lt_iff_lt_mul hVpos).mpr hidx
    have hrw := flatten_getD_uniform V hVpos (0 : α)
      (List.map (fun kS => (kS.getD b []).getD 0 []) candScores) q.1
      hcomp (by rw [List.length_map, hK]; exact hidx)
    have hfr : flatRow candScores b =
        (List.map (fun kS => (kS.getD b []).getD 0 []) candScores).flatten := rfl
    rw [hscore j hj, ← hflatgetD, hfr, hrw, getD_map_of_lt _ _ _ _ [] hq1]

/-- C5 witness: the spec scenario `K = 2`, `V = 2`, scores
`[[0.1, 0.4], [0.2, 0.3]]` with `topk = 2`: selected scores
`[0.1, 0.2]` with decoded (parent, token) pairs `(0, 0)` and `(1, 0)`. -/
theorem claim_C5_witness :
    ((List.range 2).map fun j =>
        ((getTopkIndsnScores 2 candW).2.getD j []).getD 0 0) =
      (List.insertionSort (fun x y : ℚ => x ≤ y) (flatRow candW 0)).take 2 ∧
    ((sortLe (flatRow candW 0).enum).take 2).length = 2 ∧
    (∀ j < 2, ∃ idx, idx < 2 * 2 ∧
      ((getTopkIndsnScores 2 candW).1.getD j []).getD 0 (0, 0) =
        (idx / 2, idx % 2) ∧
      idx / 2 < 2 ∧ idx % 2 < 2 ∧
      ((getTopkIndsnScores 2 candW).2.getD j []).getD 0 0 =
        (((candW.getD (idx / 2) []).getD 0 []).getD 0 []).getD (idx % 2) 0) :=
  claim_C5 2 candW 2 1 2 0 (by decide) (by decide) (by decide) (by decide)
    (by decide) (by decide) (by decide)

theorem getD_concat_self {β : Type} (l : List β) (x : β) (d : β) :
    (l ++ [x]).getD l.length d = x := by
  rw [List.getD_eq_getElem?_getD, List.getElem?_append_right (le_refl _),
    Nat.sub_self]
  rfl

theorem beamRun_trace_lengths {α σ : Type} [LinearOrderedField α]
    (m : Model α σ) (lg : α → α) (encO : Option (List (List (List α))))
    (f : List α → List α) (B : ℕ) (bs : BeamStates α σ) (lm0 : BeamLM α σ)
    (dh0 : Option (List (σ × σ))) : ∀ i : ℕ,
    (beamRun m lg encO f B bs lm0 dh0 i).1.hiddens.length = lm0.hiddens.length + i ∧
    (beamRun m lg encO f B bs lm0 dh0 i).1.cells.length = lm0.cells.length + i ∧
    (beamRun m lg encO f B bs lm0 dh0 i).1.probVec.length = lm0.probVec.length + i := by
  intro i
  induction i with
  | zero => exact ⟨rfl, rfl, rfl⟩
  | succ j ih =>
    refine ⟨?_, ?_, ?_⟩ <;>
      simp only [beamRun, List.length_append, List.length_singleton, ih.1,
        ih.2.1, ih.2.2] <;> omega

/-- C2 (amended).  Iteration `i` of the beam loop expands exactly: the
hidden/cell trace entries at index `i` (the states stacked by iteration
`i - 1` for `i` of at least 1), and the caller-supplied
`beamStates['topkInds'][i]` and `beamStates['newScores'][i]` — not the
(parent, token) pairs and scores its own top-k selection computed at
iteration `i - 1`, which are discarded: trace entry `i + 1` and the
threaded hidden state are produced by `beamStep` applied to those
caller-supplied values. -/
theorem claim_C2 {α σ : Type} [LinearOrderedField α] (m : Model α σ)
    (lg : α → α) (encO : Option (List (List (List α)))) (f : List α → List α)
    (B : ℕ) (bs : BeamStates α σ) (lm0 : BeamLM α σ)
    (dh0 : Option (List (σ × σ))) (i : ℕ)
    (hH : lm0.hiddens.length = 1) (hC : lm0.cells.length = 1)
    (hP : lm0.probVec.length = 1) :
    (beamRun m lg encO f B bs lm0 dh0 (i + 1)).1.hiddens.getD (i + 1) [] =
      (beamStep m lg encO f B
        ((beamRun m lg encO f B bs lm0 dh0 i).1.hiddens.getD i [])
        ((beamRun m lg encO f B bs lm0 dh0 i).1.cells.getD i [])
        (bs.topkInds.getD i []) (bs.newScores.getD i [])
        ((beamRun m lg encO f B bs lm0 dh0 i).2)).hiddens ∧
    (beamRun m lg encO f B bs lm0 dh0 (i + 1)).1.cells.getD (i + 1) [] =
      (beamStep m lg encO f B
        ((beamRun m lg encO f B bs lm0 dh0 i).1.hiddens.getD i [])
        ((beamRun m lg encO f B bs lm0 dh0 i).1.cells.getD i [])
        (bs.topkInds.getD i []) (bs.newScores.getD i [])
        ((beamRun m lg encO f B bs lm0 dh0 i).2)).cells ∧
    (beamRun m lg encO f B bs lm0 dh0 (i + 1)).1.probVec.getD (i + 1) [] =
      (beamStep m lg encO f B
        ((beamRun m lg encO f B bs lm0 dh0 i).1.hiddens.getD i [])
        ((beamRun m lg encO f B bs lm0 dh0 i).1.cells.getD i [])
        (bs.topkInds.getD i []) (bs.newScores.getD i [])
        ((beamRun m lg encO f B bs lm0 dh0 i).2)).probVec ∧
    (beamRun m lg encO f B bs lm0 dh0 (i + 1)).2 =
      (beamStep m lg encO f B
        ((beamRun m lg encO f B bs lm0 dh0 i).1.hiddens.getD i [])
        ((beamRun m lg encO f B bs lm0 dh0 i).1.cells.getD i [])
        (bs.topkInds.getD i []) (bs.newScores.getD i [])
        ((beamRun m lg encO f B bs lm0 dh0 i).2)).decoder_hidden := by
  have hlen := beamRun_trace_lengths m lg encO f B bs lm0 dh0 i
  refine ⟨?_, ?_, ?_, rfl⟩
  · conv_lhs =>
      rw [beamRun]
    rw [show i + 1 = (beamRun m lg encO f B bs lm0 dh0 i).1.hiddens.length by
      rw [hlen.1, hH]; omega]
    exact getD_concat_self _ _ _
  · conv_lhs =>
      rw [beamRun]
    rw [show i + 1 = (beamRun m lg encO f B bs lm0 dh0 i).1.cells.length by
      rw [hlen.2.1, hC]; omega]
    exact getD_concat_self _ _ _
  · conv_lhs =>
      rw [beamRun]
    rw [show i + 1 = (beamRun m lg encO f B bs lm0 dh0 i).1.probVec.length by
      rw [hlen.2.2, hP]; omega]
    exact getD_concat_self _ _ _

/-- C2 counterexample: in the `mC2`/`bsC2` run, the running score the
loop expands at step 1 is the caller-supplied `1`, while the score its
own top-k selection computed at step 0 is `0` — the claimed handoff
from step-0 selection to step-1 expansion does not hold. -/
theorem claim_C2_counterexample :
    ¬ (((bsC2.newScores.getD 1 []).getD 0 []).getD 0 0 =
      (((beamStep mC2 Real.log none id 1
          ((beamRun mC2 Real.log none id 1 bsC2 lmC2 none 0).1.hiddens.getD 0 [])
          ((beamRun mC2 Real.log none id 1 bsC2 lmC2 none 0).1.cells.getD 0 [])
          (bsC2.topkInds.getD 0 []) (bsC2.newScores.getD 0 [])
          ((beamRun mC2 Real.log none id 1 bsC2 lmC2 none 0).2)).scores_nxt.getD 0 []).getD 0 0)) := by
  intro h
  have hL : ((bsC2.newScores.getD 1 []).getD 0 []).getD 0 0 = (1 : ℝ) := by
    simp [bsC2]
  have hR : (((beamStep mC2 Real.log none id 1
          ((beamRun mC2 Real.log none id 1 bsC2 lmC2 none 0).1.hiddens.getD 0 [])
          ((beamRun mC2 Real.log none id 1 bsC2 lmC2 none 0).1.cells.getD 0 [])
          (bsC2.topkInds.getD 0 []) (bsC2.newScores.getD 0 [])
          ((beamRun mC2 Real.log none id 1 bsC2 lmC2 none 0).2)).scores_nxt.getD 0 []).getD 0 0) = 0 := by
    simp [beamRun, beamStep, forwardStep, stepB, runRnn, stepLogitsFlat,
      getTopkIndsnScores, mkCandScores, flatRow, sortLe, insertLe, candScore,
      mC2, bsC2, lmC2, List.range_succ]
  rw [hL, hR] at h
  exact one_ne_zero h

/-- C2 witness: the step-1 data flow of the `mC2`/`bsC2` run. -/
theorem claim_C2_witness :
    (beamRun mC2 Real.log none id 1 bsC2 lmC2 none (0 + 1)).1.hiddens.getD (0 + 1) [] =
      (beamStep mC2 Real.log none id 1
        ((beamRun mC2 Real.log none id 1 bsC2 lmC2 none 0).1.hiddens.getD 0 [])
        ((beamRun mC2 Real.log none id 1 bsC2 lmC2 none 0).1.cells.getD 0 [])
        (bsC2.topkInds.getD 0 []) (bsC2.newScores.getD 0 [])
        ((beamRun mC2 Real.log none id 1 bsC2 lmC2 none 0).2)).hiddens ∧
    (beamRun mC2 Real.log none id 1 bsC2 lmC2 none (0 + 1)).1.cells.getD (0 + 1) [] =
      (beamStep mC2 Real.log none id 1
        ((beamRun mC2 Real.log none id 1 bsC2 lmC2 none 0).1.hiddens.getD 0 [])
        ((beamRun mC2 Real.log none id 1 bsC2 lmC2 none 0).1.cells.getD 0 [])
        (bsC2.topkInds.getD 0 []) (bsC2.newScores.getD 0 [])
        ((beamRun mC2 Real.log none id 1 bsC2 lmC2 none 0).2)).cells ∧
    (beamRun mC2 Real.log none id 1 bsC2 lmC2 none (0 + 1)).1.probVec.getD (0 + 1) [] =
      (beamStep mC2 Real.log none id 1
        ((beamRun mC2 Real.log none id 1 bsC2 lmC2 none 0).1.hiddens.getD 0 [])
        ((beamRun mC2 Real.log none id 1 bsC2 lmC2 none 0).1.cells.getD 0 [])
        (bsC2.topkInds.getD 0 []) (bsC2.newScores.getD 0 [])
        ((beamRun mC2 Real.log none id 1 bsC2 lmC2 none 0).2)).probVec ∧
    (beamRun mC2 Real.log none id 1 bsC2 lmC2 none (0 + 1)).2 =
      (beamStep mC2 Real.log none id 1
        ((beamRun mC2 Real.log none id 1 bsC2 lmC2 none 0).1.hiddens.getD 0 [])
        ((beamRun mC2 Real.log none id 1 bsC2 lmC2 none 0).1.cells.getD 0 [])
        (bsC2.topkInds.getD 0 []) (bsC2.newScores.getD 0 [])
        ((beamRun mC2 Real.log none id 1 bsC2 lmC2 none 0).2)).decoder_hidden :=
  claim_C2 mC2 Real.log none id 1 bsC2 lmC2 none 0 (by decide) (by decide) (by decide)

/-- C6.  Each beam iteration's candidate scores are exactly
`mkCandScores` applied to the freshly computed probability vectors and
the running scores, every entry of which is
`-log(probability + 1e-18) * running_score` — a multiplicative
composition with the `1e-18` epsilon floor inside the logarithm, and
provably not the additive log-linear composition
`-log(probability + epsilon) + running_score`. -/
theorem claim_C6 {σ : Type} :
    (∀ (m : Model ℝ σ) (encO : Option (List (List (List ℝ))))
        (f : List ℝ → List ℝ) (B : ℕ) (bmH bmC : List (List σ))
        (tk : List (List (ℕ × ℕ))) (sc : List (List ℝ))
        (dh : Option (List (σ × σ))),
      (beamStep m Real.log encO f B bmH bmC tk sc dh).candScores =
        mkCandScores Real.log B
          (beamStep m Real.log encO f B bmH bmC tk sc dh).probVec sc) ∧
    (∀ (B : ℕ) (probVec : List (List (List (List ℝ))))
        (scores : List (List ℝ)) (k b v : ℕ),
      k < scores.length → b < B →
      v < (((probVec.getD k []).getD b []).getD 0 []).length →
      ((((mkCandScores Real.log B probVec scores).getD k []).getD b []).getD 0
          []).getD v 0 =
        -Real.log
            ((((probVec.getD k []).getD b []).getD 0 []).getD v 0 + tiny ℝ) *
          ((scores.getD k []).getD b 0)) ∧
    candScore Real.log (Real.exp 1 - tiny ℝ) 2 ≠
      -Real.log ((Real.exp 1 - tiny ℝ) + tiny ℝ) + 2 := by
  refine ⟨?_, ?_, ?_⟩
  · intro m encO f B bmH bmC tk sc dh
    rfl
  · intro B probVec scores k b v hk hb hv
    simp only [mkCandScores]
    rw [getD_map_range _ _ _ _ hk]
    rw [getD_map_range _ _ _ _ hb]
    rw [List.getD_cons_zero, getD_map_of_lt _ _ _ _ 0 hv]
    rfl
  · have h1 : (Real.exp 1 - tiny ℝ) + tiny ℝ = Real.exp 1 :=
      sub_add_cancel (Real.exp 1) (tiny ℝ)
    rw [candScore, h1, Real.log_exp]
    norm_num

/-- C6 witness: a one-entry candidate tensor with probability 1 and
running score 2 composes to `-log(1 + 1e-18) * 2`. -/
theorem claim_C6_witness :
    (0 : ℕ) < ([[2]] : List (List ℝ)).length ∧
    (((((mkCandScores Real.log 1 [[[[(1 : ℝ)]]]] [[2]]).getD 0 []).getD 0
        []).getD 0 []).getD 0 0 =
      -Real.log
          ((((([[[[(1 : ℝ)]]]] : List (List (List (List ℝ)))).getD 0 []).getD 0
              []).getD 0 []).getD 0 0 + tiny ℝ) *
        ((([[2]] : List (List ℝ)).getD 0 []).getD 0 0)) :=
  ⟨by decide,
   (claim_C6 (σ := ℕ)).2.1 1 [[[[(1 : ℝ)]]]] [[2]] 0 0 0 (by decide) (by decide)
     (by decide)⟩

end DecoderLM
